import Mathlib

/-!
# s3-grep: the match engine, the work partitioner and the worker loop

A shallow embedding of `src/cli/grep.go`.

* A Go `[]byte` is a `List Nat` (one number below 256 per byte); a Go `int` is an
  `Int` in the range from `-2^63` to `2^63 - 1`.  The arithmetic of
  `partitionS3Objects`, whose operand `desiredPartitionNum` is any `int`, wraps around
  modulo `2^64` (`wrap64`).  The arithmetic of `getContentExcerpt` is on offsets into
  one line and lengths of the line and the pattern, which are bounded by the length of
  a slice in memory, and is written without wrap-around.
* A Go run-time panic (index out of range, slice bounds out of range, integer
  divide by zero) is the result `none`.
* The functions of the Go standard library that the code calls (`bytes.Index`,
  `bytes.Contains`, `bytes.Split`) are written from their documented behaviour.
  `bytes.ToUpper` is a parameter `toUpper` of the functions that call it;
  `asciiToUpper` is what it computes on input made of ASCII bytes only.
-/

namespace S3Grep

/-- A Go byte slice. -/
abbrev Bytes := List Nat

/-! ## Standard library: package `bytes` -/

/-- Whether `s` begins with `p` (`bytes.HasPrefix`). -/
def hasPrefixBytes : Bytes → Bytes → Bool
  | _, [] => true
  | [], _ :: _ => false
  | b :: s, c :: p => (b == c) && hasPrefixBytes s p

/-- The index of the first instance of `sep` in `s`, or `-1` if `sep` is not present in
`s` (`bytes.Index`). -/
def bytesIndex : Bytes → Bytes → Int
  | [], sep => if hasPrefixBytes [] sep then 0 else -1
  | b :: s, sep =>
    if hasPrefixBytes (b :: s) sep then 0
    else
      let r := bytesIndex s sep
      if r < 0 then -1 else r + 1

/-- Whether `sub` is within `b`: `Index(b, sub) != -1` (`bytes.Contains`). -/
def bytesContains (b sub : Bytes) : Bool :=
  bytesIndex b sub != -1

/-- The subslices of `s` between the occurrences of the one-byte separator `sep`
(`bytes.Split(s, []byte{sep})`): one more subslice than there are separators. -/
def bytesSplit (sep : Nat) : Bytes → List Bytes
  | [] => [[]]
  | b :: s =>
    if b = sep then [] :: bytesSplit sep s
    else
      match bytesSplit sep s with
      | [] => [[b]]
      | l :: ls => (b :: l) :: ls

/-- What `bytes.ToUpper` returns for a slice of ASCII bytes: `a`..`z` become `A`..`Z`,
every other byte is kept. -/
def asciiToUpper (s : Bytes) : Bytes :=
  s.map fun c => if 97 ≤ c ∧ c ≤ 122 then c - 32 else c

/-! ## Go slices -/

/-- The index expression `s[i]`; `none` is the panic "index out of range". -/
def byteAt (s : Bytes) (i : Int) : Option Nat :=
  if 0 ≤ i then s.get? i.toNat else none

/-- The slice expression `s[lo:hi]`; `none` is the panic "slice bounds out of range".
Go compares `hi` with the capacity of `s`; in this program `hi` never exceeds the
length, so the length is used. -/
def slice {α : Type} (s : List α) (lo hi : Int) : Option (List α) :=
  if 0 ≤ lo ∧ lo ≤ hi ∧ hi ≤ (s.length : Int) then
    some ((s.drop lo.toNat).take (hi - lo).toNat)
  else none

/-! ## `src/cli/grep.go` -/

/-- `var MaxExcerptLength = 120`. -/
def MaxExcerptLength : Int := 120

/-- `type grepResult struct`. -/
structure grepResult where
  Key : String
  LineNum : Int
  Excerpt : Bytes
  deriving DecidableEq

/-- `caseAwareContains`: a case aware contains function for byte arrays. -/
def caseAwareContains (toUpper : Bytes → Bytes) (b sub : Bytes) (ignoreCase : Bool) : Bool :=
  if ignoreCase then bytesContains (toUpper b) (toUpper sub)
  else bytesContains b sub

/-- The position `index := bytes.Index(text, query)` that `getContentExcerpt` computes
(line 111). -/
def excerptIndex (text query : Bytes) : Int :=
  bytesIndex text query

/-- `excerptLengthLeftAndRight := (MaxExcerptLength - queryLength) / 2` (line 110); Go's
integer division truncates toward zero. -/
def excerptLengthLeftAndRight (query : Bytes) : Int :=
  Int.tdiv (MaxExcerptLength - (query.length : Int)) 2

/-- The left bound of `getContentExcerpt` (lines 112 to 119) for a text longer than
`MaxExcerptLength`: `max(index - pad, 0)`, then the word adjustment.  `none` when
`text[from]` panics. -/
def excerptFrom (text query : Bytes) : Option Int :=
  let textLenght : Int := text.length
  let start : Int := max (excerptIndex text query - excerptLengthLeftAndRight query) 0
  match byteAt text start with
  | none => none
  | some c =>
    if c = 32 then some (start + 1)
    else if start ≠ 0 then
      match slice text start textLenght with
      | none => none
      | some rest => some (bytesIndex rest [32] + 1 + start)
    else some start

/-- The right bound of `getContentExcerpt` (lines 121 to 129) for a text longer than
`MaxExcerptLength`: `min(index + queryLength + pad, len)`, moved forward to the next
space, or to the end of the text when there is none.  `none` when
`text[to:textLenght]` panics. -/
def excerptTo (text query : Bytes) : Option Int :=
  let textLenght : Int := text.length
  let stop : Int :=
    min (excerptIndex text query + (query.length : Int) + excerptLengthLeftAndRight query)
      textLenght
  if stop ≠ textLenght then
    match slice text stop textLenght with
    | none => none
    | some rest =>
      let offset := bytesIndex rest [32]
      if offset < 0 then some textLenght else some (stop + offset)
  else some stop

/-- `getContentExcerpt`: the whole text when it is at most `MaxExcerptLength` long,
otherwise `text[from:to]`.  `none` when the Go function panics. -/
def getContentExcerpt (text query : Bytes) : Option Bytes :=
  let textLenght : Int := text.length
  if textLenght ≤ MaxExcerptLength then some text
  else
    match excerptFrom text query with
    | none => none
    | some lo =>
      match excerptTo text query with
      | none => none
      | some hi => slice text lo hi

/-- A listed object together with what `object.GetContent(session, bucketName)` returns
for it (the object store is outside this program): the content, the byte count and
the error, `none` for `nil`. -/
structure StoredObject where
  key : String
  content : Bytes
  numBytes : Int
  err : Option String
  deriving DecidableEq

/-- What a worker does that the rest of the program can observe, in order. -/
inductive Event where
  /-- `fmt.Printf("%s:%s\n", err, object.GetKey())` -/
  | printed (err key : String)
  /-- `results <- grepResult{...}` -/
  | result (r : grepResult)
  /-- `done <- 1` -/
  | done
  /-- The goroutine panicked. -/
  | panicked
  deriving DecidableEq

/-- The loop over the lines of one object body (lines 86 to 94), from the line with
0-based index `i` on: the records sent, and whether the loop ran to its end (`false`
when `getContentExcerpt` panicked; the record of that line is not sent). -/
def scanLines (toUpper : Bytes → Bytes) (key : String) (query : Bytes) (ignoreCase : Bool) :
    Nat → List Bytes → List grepResult × Bool
  | _, [] => ([], true)
  | i, line :: rest =>
    if caseAwareContains toUpper line query ignoreCase then
      match getContentExcerpt line query with
      | none => ([], false)
      | some excerpt =>
        let r := scanLines toUpper key query ignoreCase (i + 1) rest
        ({ Key := key, LineNum := (i : Int) + 1, Excerpt := excerpt } :: r.1, r.2)
    else scanLines toUpper key query ignoreCase (i + 1) rest

/-- `grepInObjectContent`: the events of one worker on its chunk. -/
def grepInObjectContent (toUpper : Bytes → Bytes) (objects : List StoredObject)
    (query : Bytes) (ignoreCase : Bool) : List Event :=
  match objects with
  | [] => [Event.done]
  | object :: rest =>
    match object.err with
    | some e => Event.printed e object.key :: grepInObjectContent toUpper rest query ignoreCase
    | none =>
      if object.numBytes > 0 then
        let r := scanLines toUpper object.key query ignoreCase 0 (bytesSplit 10 object.content)
        if r.2 then r.1.map Event.result ++ grepInObjectContent toUpper rest query ignoreCase
        else r.1.map Event.result ++ [Event.panicked]
      else grepInObjectContent toUpper rest query ignoreCase

/-- The records among the events of a worker. -/
def sentResults : List Event → List grepResult
  | [] => []
  | Event.result r :: es => r :: sentResults es
  | _ :: es => sentResults es

/-- The value that a result of Go's 64-bit `int` arithmetic wraps around to: the integer
from `-2^63` to `2^63 - 1` that is congruent to `x` modulo `2^64`. -/
def wrap64 (x : Int) : Int :=
  (x + 9223372036854775808) % 18446744073709551616 - 9223372036854775808

/-- The loop of `partitionS3Objects` (lines 65 to 73) with `i` and `divided` as they are
at the loop head.  Each iteration uses one unit of `fuel`; `none` is a panic of
`objects[i:end]`, or the fuel running out with `i < numObjects`. -/
def partitionLoop {α : Type} (objects : List α) (chunkSize : Int) :
    Nat → Int → List (List α) → Option (List (List α))
  | 0, i, divided => if i < (objects.length : Int) then none else some divided
  | fuel + 1, i, divided =>
    if i < (objects.length : Int) then
      let stop : Int := wrap64 (i + chunkSize)
      let stop : Int := if stop > (objects.length : Int) then (objects.length : Int) else stop
      match slice objects i stop with
      | none => none
      | some chunk =>
        partitionLoop objects chunkSize fuel (wrap64 (i + chunkSize)) (divided ++ [chunk])
    else some divided

/-- `partitionS3Objects`, for a `desiredPartitionNum` that is a Go `int`: `none` when the
division by `desiredPartitionNum` panics or a slice expression does.  The sum, the
difference and the quotient of line 63 and the sums of lines 65 and 66 wrap around.
The loop gets `numObjects` units of fuel: with a chunk size of at least 1 it ends or
panics within `numObjects` iterations, with a negative chunk size it panics in the
first, and with a chunk size of 0 and an object to place the Go loop does not end. -/
def partitionS3Objects {α : Type} (objects : List α) (desiredPartitionNum : Int) :
    Option (List (List α)) :=
  let numObjects : Int := objects.length
  if desiredPartitionNum = 0 then none
  else
    let chunkSize :=
      wrap64 (Int.tdiv (wrap64 (wrap64 (numObjects + desiredPartitionNum) - 1))
        desiredPartitionNum)
    partitionLoop objects chunkSize objects.length 0 []

/-- The chunks that `Grep` hands to its workers on a host with `numCPU` CPUs (line 36):
`partitionS3Objects(objects, runtime.NumCPU()-1)`. -/
def dividedObjects {α : Type} (objects : List α) (numCPU : Int) : Option (List (List α)) :=
  partitionS3Objects objects (wrap64 (numCPU - 1))

/-! ## Auxiliary definitions of the proofs -/

/-- The chunks of `k` elements of a list, the last one possibly shorter; `fuel` bounds
the number of chunks.  The pure-list view of the loop of `partitionS3Objects`. -/
def chunksAux {α : Type} (k : Nat) : Nat → List α → List (List α)
  | 0, _ => []
  | _ + 1, [] => []
  | f + 1, x :: t => (x :: t).take k :: chunksAux k f ((x :: t).drop k)

/-- The offset in a body of the first byte of the line with 0-based index `i`, for the
lines `lines` of the body: every earlier line and its separator come before it. -/
def lineOffset : List Bytes → Nat → Nat
  | _, 0 => 0
  | [], _ + 1 => 0
  | l :: ls, i + 1 => l.length + 1 + lineOffset ls i

/-- The bytes of `NEEDLE`. -/
def needle : Bytes := [78, 69, 69, 68, 76, 69]

/-- The line of 400 bytes of scenario 4: `a` everywhere, `NEEDLE` at byte offset 200. -/
def lineNoSpace : Bytes :=
  List.replicate 200 97 ++ needle ++ List.replicate 194 97

/-- A line of 208 bytes: 100 `a`, `NEEDLE`, 100 `a`, a space, `b`.  Its only space comes
after both tentative bounds. -/
def lineSpaceAfterWindow : Bytes :=
  List.replicate 100 97 ++ needle ++ List.replicate 100 97 ++ [32, 98]

/-- A line of 227 bytes: 100 `a`, `NEEDLE`, 20 `a`, a space, 100 `b`.  Its only space
comes after the match. -/
def lineSpaceAfterMatch : Bytes :=
  List.replicate 100 97 ++ needle ++ List.replicate 20 97 ++ [32] ++ List.replicate 100 98

/-- A line of 137 bytes: 130 `a`, `NEEDLE`, a space. -/
def lineSpaceAtEnd : Bytes :=
  List.replicate 130 97 ++ needle ++ [32]

/-- A line of 147 bytes: 70 `a`, a space, 70 `a`, a space, `quick`. -/
def lineLowerCase : Bytes :=
  List.replicate 70 97 ++ [32] ++ List.replicate 70 97 ++ [32] ++ [113, 117, 105, 99, 107]

/-- A pattern of 200 bytes `x`, longer than `MaxExcerptLength`. -/
def longPattern : Bytes := List.replicate 200 120

/-- A line of 220 bytes: 10 `a`, `longPattern`, 10 `a`. -/
def lineLongPattern : Bytes :=
  List.replicate 10 97 ++ longPattern ++ List.replicate 10 97

/-- The bytes of `QUICK`. -/
def queryUpperCase : Bytes := [81, 85, 73, 67, 75]

/-- An object body of three lines, each containing `NEEDLE`; the second is
`lineSpaceAfterWindow`. -/
def bodyThreeMatches : Bytes :=
  needle ++ [10] ++ lineSpaceAfterWindow ++ [10] ++ needle


/-! ## The work partitioner -/

/-- A slice expression with natural-number bounds inside the list does not panic. -/
theorem slice_natCast {α : Type} (s : List α) (a b : Nat) (hab : a ≤ b) (hb : b ≤ s.length) :
    slice s (a : Int) (b : Int) = some ((s.drop a).take (b - a)) := by
  unfold slice
  have h : (0 : Int) ≤ (a : Int) ∧ (a : Int) ≤ (b : Int) ∧ (b : Int) ≤ (s.length : Int) := by
    omega
  rw [if_pos h]
  have h2 : ((b : Int) - (a : Int)).toNat = b - a := by omega
  simp [h2]

/-- A value inside the range of `int` is not changed by wrapping. -/
theorem wrap64_of_range (x : Int) (h0 : -9223372036854775808 ≤ x)
    (h1 : x < 9223372036854775808) : wrap64 x = x := by
  unfold wrap64
  omega

/-- With a chunk size of at least 1, no overflow of `i + chunkSize` and enough fuel, the
loop of `partitionS3Objects` appends the chunks of the rest of the list to `divided`. -/
theorem partitionLoop_eq {α : Type} (objects : List α) (k : Nat) (hk : 1 ≤ k)
    (hov : (objects.length : Int) + (k : Int) < 9223372036854775808) :
    ∀ (fuel j : Nat) (divided : List (List α)), objects.length - j ≤ fuel →
      partitionLoop objects (k : Int) fuel (j : Int) divided
        = some (divided ++ chunksAux k fuel (objects.drop j)) := by
  intro fuel
  induction fuel with
  | zero =>
    intro j divided h
    have hj : ¬ ((j : Int) < (objects.length : Int)) := by omega
    simp [partitionLoop, hj, chunksAux]
  | succ fuel ih =>
    intro j divided h
    rw [partitionLoop]
    by_cases hj : (j : Int) < (objects.length : Int)
    · rw [if_pos hj]
      have hjn : j < objects.length := by omega
      obtain ⟨x, t, hxt⟩ : ∃ x t, objects.drop j = x :: t := by
        cases hd : objects.drop j with
        | nil =>
          have := congrArg List.length hd
          simp at this
          omega
        | cons x t => exact ⟨x, t, rfl⟩
      have hw : wrap64 ((j : Int) + (k : Int)) = ((j + k : Nat) : Int) := by
        rw [wrap64_of_range _ (by omega) (by omega)]
        omega
      simp only [hw]
      have hstop : (if ((j + k : Nat) : Int) > (objects.length : Int) then (objects.length : Int)
          else ((j + k : Nat) : Int)) = ((min (j + k) objects.length : Nat) : Int) := by
        split <;> omega
      simp only [hstop]
      rw [slice_natCast objects j (min (j + k) objects.length) (by omega) (by omega)]
      simp only
      rw [ih (j + k) _ (by omega)]
      have htake : List.take (min (j + k) objects.length - j) (List.drop j objects)
          = List.take k (List.drop j objects) := by
        rw [List.take_eq_take]
        simp only [List.length_drop]
        omega
      rw [htake, hxt, chunksAux, ← hxt, List.drop_drop]
      simp [Nat.add_comm]
    · rw [if_neg hj]
      have : objects.drop j = [] := by
        apply List.drop_eq_nil_of_le
        omega
      simp [this, chunksAux]

/-- The empty list has no chunk. -/
theorem chunksAux_nil {α : Type} (k fuel : Nat) : chunksAux k fuel ([] : List α) = [] := by
  cases fuel <;> rfl

/-- The chunks, concatenated, are the list. -/
theorem chunksAux_flatten {α : Type} (k : Nat) (hk : 1 ≤ k) :
    ∀ (fuel : Nat) (xs : List α), xs.length ≤ fuel → (chunksAux k fuel xs).flatten = xs := by
  intro fuel
  induction fuel with
  | zero =>
    intro xs h
    have : xs = [] := List.length_eq_zero.mp (by omega)
    simp [this, chunksAux]
  | succ fuel ih =>
    intro xs h
    cases xs with
    | nil => simp [chunksAux]
    | cons x t =>
      rw [chunksAux, List.flatten_cons, ih _ (by simp only [List.length_drop, List.length_cons] at *; omega)]
      exact List.take_append_drop k (x :: t)

/-- No chunk is empty and none has more than `k` elements. -/
theorem chunksAux_mem {α : Type} (k : Nat) (hk : 1 ≤ k) :
    ∀ (fuel : Nat) (xs : List α), ∀ c ∈ chunksAux k fuel xs, c ≠ [] ∧ c.length ≤ k := by
  intro fuel
  induction fuel with
  | zero => intro xs c hc; simp [chunksAux] at hc
  | succ fuel ih =>
    intro xs c hc
    cases xs with
    | nil => simp [chunksAux] at hc
    | cons x t =>
      rw [chunksAux, List.mem_cons] at hc
      rcases hc with rfl | hc
      · refine ⟨?_, ?_⟩
        · intro h0
          have := congrArg List.length h0
          simp only [List.length_take, List.length_cons, List.length_nil] at this
          omega
        · simp only [List.length_take]
          omega
      · exact ih _ c hc

/-- A list of `n` elements has `⌈n / k⌉` chunks. -/
theorem chunksAux_count {α : Type} (k : Nat) (hk : 1 ≤ k) :
    ∀ (fuel : Nat) (xs : List α), xs.length ≤ fuel →
      xs.length ≤ (chunksAux k fuel xs).length * k ∧
      ((chunksAux k fuel xs).length * k < xs.length + k) := by
  intro fuel
  induction fuel with
  | zero =>
    intro xs h
    have : xs = [] := List.length_eq_zero.mp (by omega)
    simp [this, chunksAux]
    omega
  | succ fuel ih =>
    intro xs h
    cases xs with
    | nil => simp [chunksAux]; omega
    | cons x t =>
      have hlen : ((x :: t).drop k).length ≤ fuel := by
        simp only [List.length_drop, List.length_cons] at *; omega
      obtain ⟨h1, h2⟩ := ih _ hlen
      have hc : (chunksAux k (fuel + 1) (x :: t)).length
          = (chunksAux k fuel ((x :: t).drop k)).length + 1 := by
        rw [chunksAux, List.length_cons]
      rw [hc, Nat.add_mul, Nat.one_mul]
      by_cases hkl : (x :: t).length ≤ k
      · have hd : (x :: t).drop k = [] := List.drop_eq_nil_of_le hkl
        rw [hd, chunksAux_nil]
        simp only [List.length_nil, List.length_cons, Nat.zero_mul] at *
        omega
      · simp only [List.length_drop] at h1 h2
        omega

/-- Every chunk but the last has exactly `k` elements. -/
theorem chunksAux_dropLast {α : Type} (k : Nat) :
    ∀ (fuel : Nat) (xs : List α), ∀ c ∈ (chunksAux k fuel xs).dropLast, c.length = k := by
  intro fuel
  induction fuel with
  | zero => intro xs c hc; simp [chunksAux] at hc
  | succ fuel ih =>
    intro xs c hc
    cases xs with
    | nil => simp [chunksAux] at hc
    | cons x t =>
      rw [chunksAux] at hc
      cases hrest : chunksAux k fuel ((x :: t).drop k) with
      | nil => simp [hrest] at hc
      | cons r rs =>
        rw [hrest, List.dropLast_cons₂, List.mem_cons] at hc
        rcases hc with rfl | hc
        · have hne : (x :: t).drop k ≠ [] := by
            intro h0
            rw [h0, chunksAux_nil] at hrest
            exact List.noConfusion hrest
          have hlt : k < (x :: t).length := by
            by_contra hge
            exact hne (List.drop_eq_nil_of_le (by omega))
          simp only [List.length_take]
          omega
        · apply ih ((x :: t).drop k) c
          rw [hrest]
          exact hc

/-- The chunk size `(n + N - 1) / N` is the least `z` with `n ≤ z * N`. -/
theorem chunkSize_bounds (n : Nat) (N : Int) (hN : 1 ≤ N) :
    (n : Int) ≤ Int.tdiv ((n : Int) + N - 1) N * N ∧
      (Int.tdiv ((n : Int) + N - 1) N - 1) * N < (n : Int) := by
  have hnum : (0 : Int) ≤ (n : Int) + N - 1 := by omega
  rw [Int.tdiv_eq_ediv hnum (by omega)]
  have hdiv := Int.ediv_add_emod ((n : Int) + N - 1) N
  have hmod1 := Int.emod_nonneg ((n : Int) + N - 1) (by omega : N ≠ 0)
  have hmod2 := Int.emod_lt_of_pos ((n : Int) + N - 1) (by omega : (0 : Int) < N)
  constructor <;> nlinarith

/-- The chunk size is not negative. -/
theorem chunkSize_nonneg (n : Nat) (N : Int) (hN : 1 ≤ N) :
    0 ≤ Int.tdiv ((n : Int) + N - 1) N := by
  have h := (chunkSize_bounds n N hN).1
  by_contra hneg
  have : Int.tdiv ((n : Int) + N - 1) N * N < 0 :=
    Int.mul_neg_of_neg_of_pos (by omega) (by omega)
  omega

/-- The chunk size is at least 1 when there is an object. -/
theorem chunkSize_pos (n : Nat) (hn : 1 ≤ n) (N : Int) (hN : 1 ≤ N) :
    1 ≤ Int.tdiv ((n : Int) + N - 1) N := by
  have h := (chunkSize_bounds n N hN).1
  have h0 := chunkSize_nonneg n N hN
  by_contra hlt
  have hz : Int.tdiv ((n : Int) + N - 1) N = 0 := by omega
  rw [hz] at h
  omega

/-- The chunk size is 1 when there are more partitions than objects. -/
theorem chunkSize_eq_one (n : Nat) (hn : 1 ≤ n) (N : Int) (hlt : (n : Int) < N) :
    Int.tdiv ((n : Int) + N - 1) N = 1 := by
  have hN : 1 ≤ N := by omega
  have h1 := chunkSize_pos n hn N hN
  have h2 := (chunkSize_bounds n N hN).2
  by_contra hne
  have h3 : 1 ≤ Int.tdiv ((n : Int) + N - 1) N - 1 := by omega
  have : N ≤ (Int.tdiv ((n : Int) + N - 1) N - 1) * N := by nlinarith
  omega

/-- The chunk size is the ceiling of `n / N`, taken in the rationals. -/
theorem chunkSize_eq_ceil (n : Nat) (N : Int) (hN : 1 ≤ N) :
    Int.tdiv ((n : Int) + N - 1) N = ⌈(n : ℚ) / (N : ℚ)⌉ := by
  obtain ⟨h1, h2⟩ := chunkSize_bounds n N hN
  symm
  rw [Int.ceil_eq_iff]
  have hNq : (0 : ℚ) < (N : ℚ) := by exact_mod_cast (by omega : (0 : Int) < N)
  constructor
  · rw [lt_div_iff₀ hNq]
    exact_mod_cast h2
  · rw [div_le_iff₀ hNq]
    exact_mod_cast h1

/-- The chunk size is at most the number of objects. -/
theorem chunkSize_le (n : Nat) (N : Int) (hN : 1 ≤ N) :
    Int.tdiv ((n : Int) + N - 1) N ≤ (n : Int) := by
  have h0 := chunkSize_nonneg n N hN
  have h2 := (chunkSize_bounds n N hN).2
  by_contra hgt
  have h3 : (n : Int) ≤ Int.tdiv ((n : Int) + N - 1) N - 1 := by omega
  have h4 : Int.tdiv ((n : Int) + N - 1) N - 1 ≤ (Int.tdiv ((n : Int) + N - 1) N - 1) * N := by
    nlinarith
  omega

/-- For a partition count of at least 1 and when neither `numObjects + N - 1` nor
`i + chunkSize` overflows, `partitionS3Objects` returns the chunks of `⌈n / N⌉` elements
of the list. -/
theorem partitionS3Objects_eq {α : Type} (objects : List α) (N : Int) (hN : 1 ≤ N)
    (hsum : (objects.length : Int) + N - 1 < 9223372036854775808)
    (hlen : objects.length < 4611686018427387904) :
    partitionS3Objects objects N
      = some (chunksAux (Int.tdiv ((objects.length : Int) + N - 1) N).toNat
          objects.length objects) := by
  unfold partitionS3Objects
  rw [if_neg (by omega)]
  have hw1 : wrap64 (wrap64 ((objects.length : Int) + N) - 1) = (objects.length : Int) + N - 1 := by
    unfold wrap64
    omega
  have hz0 := chunkSize_nonneg objects.length N hN
  have hzn := chunkSize_le objects.length N hN
  have hw2 : wrap64 (Int.tdiv ((objects.length : Int) + N - 1) N)
      = Int.tdiv ((objects.length : Int) + N - 1) N :=
    wrap64_of_range _ (by omega) (by omega)
  simp only [hw1, hw2]
  cases objects with
  | nil => simp [partitionLoop, chunksAux]
  | cons x t =>
    have hpos := chunkSize_pos (x :: t).length (by simp) N hN
    have hk : (((Int.tdiv (((x :: t).length : Int) + N - 1) N).toNat : Nat) : Int)
        = Int.tdiv (((x :: t).length : Int) + N - 1) N := Int.toNat_of_nonneg (by omega)
    have h := partitionLoop_eq (x :: t) (Int.tdiv (((x :: t).length : Int) + N - 1) N).toNat
      (by omega) (by omega) (x :: t).length 0 [] (by omega)
    rw [hk] at h
    simpa using h

/-- C2 (amended). For every list of fewer than `2^62` objects (more than any slice of
objects in memory has) and every `N ≥ 1` with `len + N - 1 ≤ 2^63 - 1`, so that no
`int` overflows, `partitionS3Objects` returns, and the chunks it returns, concatenated
in order, are the list itself. -/
theorem partitionS3Objects_concat {α : Type} (objects : List α) (N : Int) (hN : 1 ≤ N)
    (hsum : (objects.length : Int) + N - 1 < 2 ^ 63) (hlen : objects.length < 2 ^ 62) :
    ∃ chunks, partitionS3Objects objects N = some chunks ∧ chunks.flatten = objects := by
  norm_num at hsum hlen
  refine ⟨_, partitionS3Objects_eq objects N hN (by omega) hlen, ?_⟩
  cases objects with
  | nil => simp [chunksAux]
  | cons x t =>
    have hpos := chunkSize_pos (x :: t).length (by simp) N hN
    exact chunksAux_flatten _ (by omega) _ _ (Nat.le_refl _)

/-- C2 (amended) at seven objects and `N = 3`. -/
theorem partitionS3Objects_concat_witness :
    (1 : Int) ≤ 3 ∧ ((([1, 2, 3, 4, 5, 6, 7] : List Nat).length : Int) + 3 - 1 < 2 ^ 63) ∧
    (([1, 2, 3, 4, 5, 6, 7] : List Nat).length < 2 ^ 62) ∧
    ∃ chunks, partitionS3Objects [1, 2, 3, 4, 5, 6, 7] 3 = some chunks ∧
      chunks.flatten = [1, 2, 3, 4, 5, 6, 7] :=
  ⟨by decide, by decide, by decide,
    partitionS3Objects_concat [1, 2, 3, 4, 5, 6, 7] 3 (by decide) (by decide) (by decide)⟩

/-- C2 as stated fails: for two objects and `N = 2^63 - 1`, which is at least 1, the sum
`numObjects + N - 1` wraps around to `-2^63`, the chunk size is `-1`, and `objects[0:-1]`
panics, so no chunks are returned. -/
theorem partitionS3Objects_concat_overflow :
    (1 : Int) ≤ 9223372036854775807 ∧
    partitionS3Objects ([0, 1] : List Nat) 9223372036854775807 = none ∧
    ¬ ∃ chunks, partitionS3Objects ([0, 1] : List Nat) 9223372036854775807 = some chunks ∧
      chunks.flatten = [0, 1] := by
  have h : partitionS3Objects ([0, 1] : List Nat) 9223372036854775807 = none := by decide!
  refine ⟨by decide, h, ?_⟩
  rw [h]
  rintro ⟨chunks, hc, -⟩
  exact Option.noConfusion hc

/-- C8 (amended). For every list of `n < 2^62` objects (more than any slice of objects
in memory has) and every `N ≥ 1` with
`n + N - 1 ≤ 2^63 - 1`, so that no `int` overflows, `partitionS3Objects` returns chunks
that are the list cut in order: concatenated they are the list; there are at most `N` of
them and enough to hold `n` elements at `⌈n / N⌉` each; none is empty; every chunk but
the last has exactly `⌈n / N⌉` elements and no chunk has more; there is no chunk when
`n = 0`; and when `N > n` there are fewer than `N` chunks, each of one element. -/
theorem partitionS3Objects_chunks {α : Type} (objects : List α) (N : Int) (hN : 1 ≤ N)
    (hsum : (objects.length : Int) + N - 1 < 2 ^ 63) (hlen : objects.length < 2 ^ 62) :
    ∃ chunks, partitionS3Objects objects N = some chunks ∧
      chunks.flatten = objects ∧
      (chunks.length : Int) ≤ N ∧
      (objects.length : Int) ≤ (chunks.length : Int) * ⌈(objects.length : ℚ) / (N : ℚ)⌉ ∧
      (∀ c ∈ chunks, c ≠ []) ∧
      (∀ c ∈ chunks.dropLast, (c.length : Int) = ⌈(objects.length : ℚ) / (N : ℚ)⌉) ∧
      (∀ c ∈ chunks, (c.length : Int) ≤ ⌈(objects.length : ℚ) / (N : ℚ)⌉) ∧
      (objects.length = 0 → chunks = []) ∧
      ((objects.length : Int) < N → (chunks.length : Int) < N ∧ ∀ c ∈ chunks, c.length = 1) := by
  norm_num at hsum hlen
  refine ⟨_, partitionS3Objects_eq objects N hN (by omega) hlen, ?_⟩
  rw [← chunkSize_eq_ceil objects.length N hN]
  cases objects with
  | nil =>
    simp [chunksAux]
    omega
  | cons x t =>
    have hpos := chunkSize_pos (x :: t).length (by simp) N hN
    obtain ⟨hb1, -⟩ := chunkSize_bounds (x :: t).length N hN
    generalize hz : Int.tdiv (((x :: t).length : Int) + N - 1) N = z at hpos hb1 ⊢
    obtain ⟨k, rfl⟩ : ∃ k : Nat, z = (k : Int) := ⟨z.toNat, (Int.toNat_of_nonneg (by omega)).symm⟩
    have hk : 1 ≤ k := by omega
    rw [Int.toNat_natCast]
    have hfl := chunksAux_flatten k hk (x :: t).length (x :: t) (Nat.le_refl _)
    have hmem := chunksAux_mem k hk (x :: t).length (x :: t)
    have hcnt := chunksAux_count k hk (x :: t).length (x :: t) (Nat.le_refl _)
    have hdl := chunksAux_dropLast k (x :: t).length (x :: t)
    generalize chunksAux k (x :: t).length (x :: t) = chunks at hfl hmem hcnt hdl ⊢
    refine ⟨hfl, ?_, ?_, fun c hc => (hmem c hc).1, ?_, ?_, ?_, ?_⟩
    · by_contra hgt
      have h1 : N + 1 ≤ (chunks.length : Int) := by omega
      have h2 : (N + 1) * (k : Int) ≤ (chunks.length : Int) * (k : Int) :=
        Int.mul_le_mul_of_nonneg_right h1 (by omega)
      have h3 : (chunks.length : Int) * (k : Int) < ((x :: t).length : Int) + (k : Int) := by
        exact_mod_cast hcnt.2
      nlinarith
    · exact_mod_cast hcnt.1
    · intro c hc
      exact_mod_cast hdl c hc
    · intro c hc
      exact_mod_cast (hmem c hc).2
    · intro h0
      simp at h0
    · intro hlt
      have hone := chunkSize_eq_one (x :: t).length (by simp) N hlt
      rw [hz] at hone
      have hk1 : k = 1 := by omega
      subst hk1
      refine ⟨?_, ?_⟩
      · have := hcnt.2
        omega
      · intro c hc
        have h1 := (hmem c hc).1
        have h2 := (hmem c hc).2
        have h3 : c.length ≠ 0 := fun h0 => h1 (List.length_eq_zero.mp h0)
        omega

/-- C8 (amended) at seven objects and `N = 3`. -/
theorem partitionS3Objects_chunks_witness :
    (1 : Int) ≤ 3 ∧ ((([1, 2, 3, 4, 5, 6, 7] : List Nat).length : Int) + 3 - 1 < 2 ^ 63) ∧
    (([1, 2, 3, 4, 5, 6, 7] : List Nat).length < 2 ^ 62) ∧
    ∃ chunks, partitionS3Objects [1, 2, 3, 4, 5, 6, 7] 3 = some chunks ∧
      chunks.flatten = [1, 2, 3, 4, 5, 6, 7] ∧
      (chunks.length : Int) ≤ 3 ∧
      ((([1, 2, 3, 4, 5, 6, 7] : List Nat).length : Int) ≤ (chunks.length : Int) *
        ⌈(([1, 2, 3, 4, 5, 6, 7] : List Nat).length : ℚ) / ((3 : Int) : ℚ)⌉) ∧
      (∀ c ∈ chunks, c ≠ []) ∧
      (∀ c ∈ chunks.dropLast,
        (c.length : Int) = ⌈(([1, 2, 3, 4, 5, 6, 7] : List Nat).length : ℚ) / ((3 : Int) : ℚ)⌉) ∧
      (∀ c ∈ chunks,
        (c.length : Int) ≤ ⌈(([1, 2, 3, 4, 5, 6, 7] : List Nat).length : ℚ) / ((3 : Int) : ℚ)⌉) ∧
      (([1, 2, 3, 4, 5, 6, 7] : List Nat).length = 0 → chunks = []) ∧
      ((([1, 2, 3, 4, 5, 6, 7] : List Nat).length : Int) < 3 →
        (chunks.length : Int) < 3 ∧ ∀ c ∈ chunks, c.length = 1) :=
  ⟨by decide, by decide, by decide,
    partitionS3Objects_chunks [1, 2, 3, 4, 5, 6, 7] 3 (by decide) (by decide) (by decide)⟩

/-- C8 as stated fails: for three objects and `N = 2^63 - 1`, which is at least 1, the
sum `numObjects + N - 1` wraps around to `-2^63 + 1`, the chunk size is `-1`, and
`objects[0:-1]` panics, so there are no chunks to count or measure. -/
theorem partitionS3Objects_chunks_overflow :
    (1 : Int) ≤ 9223372036854775807 ∧
    partitionS3Objects ([0, 1, 2] : List Nat) 9223372036854775807 = none ∧
    ¬ ∃ chunks, partitionS3Objects ([0, 1, 2] : List Nat) 9223372036854775807 = some chunks ∧
      (chunks.length : Int) ≤ 9223372036854775807 ∧ ∀ c ∈ chunks, c ≠ [] := by
  have h : partitionS3Objects ([0, 1, 2] : List Nat) 9223372036854775807 = none := by decide!
  refine ⟨by decide, h, ?_⟩
  rw [h]
  rintro ⟨chunks, hc, -⟩
  exact Option.noConfusion hc

/-- The listing of five objects cut for `N = 4`: the chunk size is `⌈5 / 4⌉ = 2` and
there are three chunks, of 2, 2 and 1 objects, not four chunks of the same size. -/
theorem partitionS3Objects_five_by_four :
    partitionS3Objects ([0, 1, 2, 3, 4] : List Nat) 4 = some [[0, 1], [2, 3], [4]] := by
  decide!

/-- C7 (defect). On a host with one CPU `Grep` passes `runtime.NumCPU() - 1 = 0` as
`desiredPartitionNum`, and `partitionS3Objects` panics on the division by it, whatever
the listed objects are. -/
theorem dividedObjects_one_cpu_panics {α : Type} (objects : List α) :
    dividedObjects objects 1 = none := by
  have h0 : wrap64 0 = 0 := by
    unfold wrap64
    omega
  simp [dividedObjects, partitionS3Objects, h0]

/-- On a host with at least two CPUs, and when no `int` overflows, `Grep` gets its
chunks, and they are the listed objects in order. -/
theorem dividedObjects_of_two_le {α : Type} (objects : List α) (numCPU : Int)
    (h : 2 ≤ numCPU) (hcpu : numCPU < 9223372036854775808)
    (hsum : (objects.length : Int) + numCPU - 2 < 9223372036854775808)
    (hlen : objects.length < 4611686018427387904) :
    ∃ chunks, dividedObjects objects numCPU = some chunks ∧ chunks.flatten = objects := by
  have hw : wrap64 (numCPU - 1) = numCPU - 1 := wrap64_of_range _ (by omega) (by omega)
  unfold dividedObjects
  rw [hw]
  obtain ⟨chunks, h1, h2⟩ :
      ∃ chunks, partitionS3Objects objects (numCPU - 1) = some chunks ∧
        chunks.flatten = objects := by
    refine ⟨_, partitionS3Objects_eq objects (numCPU - 1) (by omega) (by omega) hlen, ?_⟩
    cases objects with
    | nil => simp [chunksAux]
    | cons x t =>
      have hpos := chunkSize_pos (x :: t).length (by simp) (numCPU - 1) (by omega)
      exact chunksAux_flatten _ (by omega) _ _ (Nat.le_refl _)
  exact ⟨chunks, h1, h2⟩

/-! ## The worker loop -/

/-- A split has at least one line. -/
theorem bytesSplit_ne_nil (sep : Nat) (s : Bytes) : bytesSplit sep s ≠ [] := by
  cases s with
  | nil => simp [bytesSplit]
  | cons b s =>
    unfold bytesSplit
    split
    · simp
    · split <;> simp

/-- The number of lines is one more than the number of separators. -/
theorem bytesSplit_length (sep : Nat) (s : Bytes) :
    (bytesSplit sep s).length = s.count sep + 1 := by
  induction s with
  | nil => simp [bytesSplit]
  | cons b s ih =>
    unfold bytesSplit
    by_cases hb : b = sep
    · subst hb
      simp [ih]
    · rw [if_neg hb]
      have hc : List.count sep (b :: s) = List.count sep s := by
        rw [List.count_cons]
        simp [hb]
      rw [hc, ← ih]
      cases h : bytesSplit sep s with
      | nil => exact absurd h (bytesSplit_ne_nil sep s)
      | cons l ls => simp

/-- In the split of a body, the line with 0-based index `i` starts at the offset
`lineOffset _ i` of the body, and exactly `i` separators come before that offset. -/
theorem bytesSplit_line_position (sep : Nat) (s : Bytes) :
    ∀ i, i < (bytesSplit sep s).length →
      (s.take (lineOffset (bytesSplit sep s) i)).count sep = i ∧
      (s.drop (lineOffset (bytesSplit sep s) i)).take ((bytesSplit sep s).getD i []).length
        = (bytesSplit sep s).getD i [] := by
  induction s with
  | nil =>
    intro i hi
    simp [bytesSplit] at hi
    subst hi
    simp [bytesSplit, lineOffset]
  | cons b s ih =>
    intro i hi
    unfold bytesSplit at hi ⊢
    by_cases hb : b = sep
    · subst hb
      rw [if_pos rfl] at hi ⊢
      cases i with
      | zero => simp [lineOffset]
      | succ j =>
        have hj : j < (bytesSplit b s).length := by simpa using hi
        obtain ⟨h1, h2⟩ := ih j hj
        have ho : lineOffset ([] :: bytesSplit b s) (j + 1)
            = lineOffset (bytesSplit b s) j + 1 := by
          simp [lineOffset, Nat.add_comm]
        rw [ho]
        constructor
        · simp [h1]
        · simpa using h2
    · rw [if_neg hb] at hi ⊢
      cases h : bytesSplit sep s with
      | nil => exact absurd h (bytesSplit_ne_nil sep s)
      | cons l ls =>
        rw [h] at ih hi
        simp only at hi ⊢
        cases i with
        | zero =>
          obtain ⟨-, h2⟩ := ih 0 (by simp)
          simp [lineOffset] at h2 ⊢
          exact h2
        | succ j =>
          obtain ⟨h1, h2⟩ := ih (j + 1) (by simpa using hi)
          have ho : lineOffset ((b :: l) :: ls) (j + 1)
              = lineOffset (l :: ls) (j + 1) + 1 := by
            simp [lineOffset]
            omega
          rw [ho]
          have hc : List.count sep (b :: List.take (lineOffset (l :: ls) (j + 1)) s)
              = List.count sep (List.take (lineOffset (l :: ls) (j + 1)) s) := by
            rw [List.count_cons]
            simp [hb]
          simp only [List.take_succ_cons, List.drop_succ_cons, hc, h1, true_and]
          simpa using h2

/-- When the loop over the lines runs to its end, it has sent, in line order, one record
for each line that satisfies `caseAwareContains` and none for another line; the record of
the line with 0-based index `j` has the key of the object, the line number `j + 1` and
the excerpt of the line. -/
theorem scanLines_complete (toUpper : Bytes → Bytes) (key : String) (query : Bytes)
    (ignoreCase : Bool) :
    ∀ (lines : List Bytes) (i : Nat),
      (scanLines toUpper key query ignoreCase i lines).2 = true →
      (scanLines toUpper key query ignoreCase i lines).1.map
          (fun r => (r.Key, r.LineNum, some r.Excerpt))
        = ((lines.enumFrom i).filter
            (fun p => caseAwareContains toUpper p.2 query ignoreCase)).map
          (fun p => (key, (p.1 : Int) + 1, getContentExcerpt p.2 query)) := by
  intro lines
  induction lines with
  | nil => intro i _; simp [scanLines]
  | cons line rest ih =>
    intro i h
    unfold scanLines at h ⊢
    by_cases hc : caseAwareContains toUpper line query ignoreCase = true
    · rw [if_pos hc] at h ⊢
      cases he : getContentExcerpt line query with
      | none => simp [he] at h
      | some excerpt =>
        rw [he] at h
        have hrest : (scanLines toUpper key query ignoreCase (i + 1) rest).2 = true := h
        simp [List.enumFrom_cons, List.filter_cons, hc, he, ih (i + 1) hrest]
    · rw [if_neg hc] at h ⊢
      simp [List.enumFrom_cons, List.filter_cons, hc, ih (i + 1) h]

/-- The loop over the lines stops early exactly when `getContentExcerpt` panics on a line
that satisfies `caseAwareContains`. -/
theorem scanLines_complete_iff (toUpper : Bytes → Bytes) (key : String) (query : Bytes)
    (ignoreCase : Bool) :
    ∀ (lines : List Bytes) (i : Nat),
      (scanLines toUpper key query ignoreCase i lines).2 = true ↔
        ∀ line ∈ lines, caseAwareContains toUpper line query ignoreCase = true →
          getContentExcerpt line query ≠ none := by
  intro lines
  induction lines with
  | nil => intro i; simp [scanLines]
  | cons line rest ih =>
    intro i
    unfold scanLines
    by_cases hc : caseAwareContains toUpper line query ignoreCase = true
    · rw [if_pos hc]
      cases he : getContentExcerpt line query with
      | none =>
        simp only [List.mem_cons, Bool.false_eq_true, false_iff]
        intro hall
        exact hall line (Or.inl rfl) hc he
      | some excerpt =>
        simp only
        rw [ih (i + 1)]
        simp [hc, he]
    · rw [if_neg hc, ih (i + 1)]
      simp [hc]

/-- A worker whose chunk is one object, fetched without error and with a positive byte
count, sends the records of the loop over the lines of its body, and then its completion
token if that loop ran to its end. -/
theorem grepInObjectContent_single (toUpper : Bytes → Bytes) (object : StoredObject)
    (query : Bytes) (ignoreCase : Bool) (herr : object.err = none)
    (hnum : 0 < object.numBytes) :
    sentResults (grepInObjectContent toUpper [object] query ignoreCase)
        = (scanLines toUpper object.key query ignoreCase 0 (bytesSplit 10 object.content)).1 ∧
      (Event.done ∈ grepInObjectContent toUpper [object] query ignoreCase ↔
        (scanLines toUpper object.key query ignoreCase 0
          (bytesSplit 10 object.content)).2 = true) := by
  have hs : ∀ rs : List grepResult, ∀ es : List Event,
      sentResults (rs.map Event.result ++ es) = rs ++ sentResults es := by
    intro rs es
    induction rs with
    | nil => simp
    | cons r rs ih => simp [sentResults, ih]
  have hd : ∀ rs : List grepResult, Event.done ∉ rs.map Event.result := by
    intro rs
    simp
  unfold grepInObjectContent
  simp only [herr, gt_iff_lt, hnum, if_true]
  cases h2 : (scanLines toUpper object.key query ignoreCase 0
      (bytesSplit 10 object.content)).2 with
  | true =>
    simp [grepInObjectContent, hs, sentResults]
  | false =>
    simp [hs, sentResults]

/-! ## The match engine -/

/-- A slice begins with `p` exactly when it is `p` followed by something. -/
theorem hasPrefixBytes_iff (s p : Bytes) : hasPrefixBytes s p = true ↔ ∃ t, s = p ++ t := by
  induction p generalizing s with
  | nil => simp [hasPrefixBytes]
  | cons c p ih =>
    cases s with
    | nil => simp [hasPrefixBytes]
    | cons b s =>
      simp only [hasPrefixBytes, Bool.and_eq_true, beq_iff_eq, ih, List.cons_append,
        List.cons.injEq]
      constructor
      · rintro ⟨rfl, t, rfl⟩
        exact ⟨t, rfl, rfl⟩
      · rintro ⟨t, rfl, rfl⟩
        exact ⟨rfl, t, rfl⟩

/-- The model of `bytes.Index` meets its documentation: the result is `-1` when `sep` does
not occur in `s`, and otherwise the offset of the first occurrence. -/
theorem bytesIndex_spec (s sep : Bytes) :
    (bytesIndex s sep = -1 ∧ ∀ pre post, s ≠ pre ++ sep ++ post) ∨
    ∃ pre post, s = pre ++ sep ++ post ∧ bytesIndex s sep = (pre.length : Int) ∧
      ∀ pre1 post1, s = pre1 ++ sep ++ post1 → pre.length ≤ pre1.length := by
  induction s with
  | nil =>
    unfold bytesIndex
    by_cases hp : hasPrefixBytes [] sep = true
    · right
      obtain ⟨t, ht⟩ := (hasPrefixBytes_iff [] sep).mp hp
      refine ⟨[], t, by simpa using ht, by simp [hp], fun _ _ _ => Nat.zero_le _⟩
    · left
      refine ⟨by simp [hp], ?_⟩
      intro pre post h
      apply hp
      rw [hasPrefixBytes_iff]
      have h1 : pre = [] ∧ sep = [] ∧ post = [] := by
        simpa [List.append_eq_nil, eq_comm] using h
      exact ⟨[], by simp [h1.2.1]⟩
  | cons b s ih =>
    unfold bytesIndex
    by_cases hp : hasPrefixBytes (b :: s) sep = true
    · right
      obtain ⟨t, ht⟩ := (hasPrefixBytes_iff (b :: s) sep).mp hp
      refine ⟨[], t, by simpa using ht, by simp [hp], fun _ _ _ => Nat.zero_le _⟩
    · have hnot : ∀ post, b :: s ≠ sep ++ post := by
        intro post h
        exact hp ((hasPrefixBytes_iff (b :: s) sep).mpr ⟨post, h⟩)
      rw [if_neg hp]
      rcases ih with ⟨hr, hno⟩ | ⟨pre, post, hs, hr, hmin⟩
      · left
        refine ⟨by simp [hr], ?_⟩
        intro pre post h
        cases pre with
        | nil => exact hnot post (by simpa using h)
        | cons a pre =>
          simp only [List.cons_append, List.cons.injEq] at h
          exact hno pre post h.2
      · right
        refine ⟨b :: pre, post, by simp [hs], ?_, ?_⟩
        · have hnn : ¬ ((pre.length : Int) < 0) := by omega
          simp only [hr, if_neg hnn, List.length_cons, Nat.cast_add, Nat.cast_one]
        · intro pre1 post1 h
          cases pre1 with
          | nil => exact absurd (by simpa using h) (hnot post1)
          | cons a pre1 =>
            simp only [List.cons_append, List.cons.injEq] at h
            have := hmin pre1 post1 h.2
            simp only [List.length_cons]
            omega

/-- A pattern occurs in a line as a byte substring exactly when `bytes.Contains` says so. -/
theorem bytesContains_iff (b sub : Bytes) :
    bytesContains b sub = true ↔ ∃ pre post, b = pre ++ sub ++ post := by
  unfold bytesContains
  rcases bytesIndex_spec b sub with ⟨hr, hno⟩ | ⟨pre, post, hs, hr, -⟩
  · simp only [hr, bne_self_eq_false, Bool.false_eq_true, false_iff]
    rintro ⟨pre, post, h⟩
    exact hno pre post h
  · have hne : (pre.length : Int) ≠ -1 := by omega
    simp only [hr, bne_iff_ne, ne_eq, hne, not_false_eq_true, true_iff]
    exact ⟨pre, post, hs⟩

/-- Without `ignoreCase` the gate of the worker and the search of `getContentExcerpt` agree:
the line passes the gate exactly when the position computed for the excerpt is not `-1`. -/
theorem caseAwareContains_caseSensitive (toUpper : Bytes → Bytes) (line query : Bytes) :
    caseAwareContains toUpper line query false = true ↔ excerptIndex line query ≠ -1 := by
  simp [caseAwareContains, bytesContains, excerptIndex]

/-- A text of at most `MaxExcerptLength` bytes is returned whole. -/
theorem getContentExcerpt_short (text query : Bytes) (h : (text.length : Int) ≤ MaxExcerptLength) :
    getContentExcerpt text query = some text := by
  simp [getContentExcerpt, h]

/-- The position that `bytes.Index` returns is `-1` or an offset at which the whole of
`sep` fits into `s`. -/
theorem bytesIndex_bounds (s sep : Bytes) :
    bytesIndex s sep = -1 ∨
      (0 ≤ bytesIndex s sep ∧ bytesIndex s sep + (sep.length : Int) ≤ (s.length : Int)) := by
  rcases bytesIndex_spec s sep with ⟨hr, -⟩ | ⟨pre, post, hs, hr, -⟩
  · exact Or.inl hr
  · right
    have hl := congrArg List.length hs
    simp only [List.length_append] at hl
    omega

/-- The padding on each side of the match: at most `(120 + q) / 2`, not negative for a
pattern of at most 120 bytes, and above `-q` for a non-empty pattern of `q` bytes. -/
theorem excerptLengthLeftAndRight_bounds (query : Bytes) :
    -(query.length : Int) < 2 * excerptLengthLeftAndRight query ∧
      2 * excerptLengthLeftAndRight query ≤ 120 + (query.length : Int) ∧
      (1 ≤ query.length → -(query.length : Int) < excerptLengthLeftAndRight query) ∧
      ((query.length : Int) ≤ 120 → 0 ≤ excerptLengthLeftAndRight query) := by
  unfold excerptLengthLeftAndRight MaxExcerptLength
  by_cases h : (query.length : Int) ≤ 120
  · rw [Int.tdiv_eq_ediv (by omega) (by omega)]
    omega
  · have hneg : (120 : Int) - (query.length : Int) = -((query.length : Int) - 120) := by omega
    rw [hneg, Int.neg_tdiv, Int.tdiv_eq_ediv (by omega) (by omega)]
    omega

/-- For a text longer than `MaxExcerptLength` and a non-empty pattern that occurs in it,
`getContentExcerpt` gets as far as the final slice expression with both bounds inside the
text, and it panics there exactly when the right bound is below the left bound. -/
theorem getContentExcerpt_bounds (text query : Bytes)
    (hlen : MaxExcerptLength < (text.length : Int)) (hq : query ≠ [])
    (hocc : bytesContains text query = true) :
    ∃ lo hi, excerptFrom text query = some lo ∧ excerptTo text query = some hi ∧
      0 ≤ lo ∧ lo ≤ (text.length : Int) ∧ 0 ≤ hi ∧ hi ≤ (text.length : Int) ∧
      getContentExcerpt text query = slice text lo hi ∧
      (getContentExcerpt text query = none ↔ hi < lo) := by
  have hq1 : 1 ≤ query.length := by
    cases query with
    | nil => exact absurd rfl hq
    | cons a q => simp
  have hidx : 0 ≤ bytesIndex text query ∧
      bytesIndex text query + (query.length : Int) ≤ (text.length : Int) := by
    rcases bytesIndex_bounds text query with h | h
    · simp [bytesContains, h] at hocc
    · exact h
  obtain ⟨hp1, hp2, hp3, hp4⟩ := excerptLengthLeftAndRight_bounds query
  have hp3 := hp3 hq1
  -- the left bound
  have hfrom : ∃ lo, excerptFrom text query = some lo ∧ 0 ≤ lo ∧ lo ≤ (text.length : Int) := by
    unfold excerptFrom excerptIndex
    generalize hstart : max (bytesIndex text query - excerptLengthLeftAndRight query) 0 = start
    have hs0 : 0 ≤ start := by rw [← hstart]; exact le_max_right _ _
    have hs1 : start < (text.length : Int) := by
      rw [← hstart]
      apply max_lt <;> omega
    have hnat : start.toNat < text.length := by omega
    have hbyte : byteAt text start = some (text.get ⟨start.toNat, hnat⟩) := by
      unfold byteAt
      rw [if_pos hs0]
      exact List.get?_eq_get hnat
    simp only [hbyte]
    split
    · exact ⟨_, rfl, by omega, by omega⟩
    · split
      · have hsl : slice text start (text.length : Int) = some (text.drop start.toNat) := by
          unfold slice
          rw [if_pos ⟨hs0, by omega, le_refl _⟩]
          congr 1
          apply List.take_of_length_le
          simp only [List.length_drop]
          omega
        simp only [hsl]
        refine ⟨_, rfl, ?_, ?_⟩
        · rcases bytesIndex_bounds (text.drop start.toNat) [32] with h | h <;> omega
        · rcases bytesIndex_bounds (text.drop start.toNat) [32] with h | h
          · omega
          · have := h.2
            simp only [List.length_drop, List.length_singleton] at this
            omega
      · exact ⟨_, rfl, by omega, by omega⟩
  -- the right bound
  have hto : ∃ hi, excerptTo text query = some hi ∧ 0 ≤ hi ∧ hi ≤ (text.length : Int) := by
    unfold excerptTo excerptIndex
    dsimp only
    generalize hstop : min (bytesIndex text query + (query.length : Int)
      + excerptLengthLeftAndRight query) (text.length : Int) = stop
    have ht0 : 0 ≤ stop := by
      rw [← hstop]
      apply le_min <;> omega
    have ht1 : stop ≤ (text.length : Int) := by rw [← hstop]; exact min_le_right _ _
    split
    · have hsl : slice text stop (text.length : Int) = some (text.drop stop.toNat) := by
        unfold slice
        rw [if_pos ⟨ht0, ht1, le_refl _⟩]
        congr 1
        apply List.take_of_length_le
        simp only [List.length_drop]
        omega
      simp only [hsl]
      split
      · exact ⟨_, rfl, by omega, le_refl _⟩
      · refine ⟨_, rfl, by omega, ?_⟩
        rcases bytesIndex_bounds (text.drop stop.toNat) [32] with h | h
        · omega
        · have := h.2
          simp only [List.length_drop, List.length_singleton] at this
          omega
    · exact ⟨_, rfl, ht0, ht1⟩
  obtain ⟨lo, hlo, hlo0, hlo1⟩ := hfrom
  obtain ⟨hi, hhi, hhi0, hhi1⟩ := hto
  have hget : getContentExcerpt text query = slice text lo hi := by
    unfold getContentExcerpt
    simp only [hlo, hhi]
    rw [if_neg (by omega)]
  refine ⟨lo, hi, hlo, hhi, hlo0, hlo1, hhi0, hhi1, hget, ?_⟩
  rw [hget]
  unfold slice
  constructor
  · intro h
    by_contra hge
    rw [if_pos ⟨hlo0, by omega, hhi1⟩] at h
    exact Option.noConfusion h
  · intro h
    rw [if_neg (by omega)]

/-- The bounds of the excerpt at the line of scenario 4. -/
theorem getContentExcerpt_bounds_witness :
    MaxExcerptLength < (lineNoSpace.length : Int) ∧ needle ≠ [] ∧
    bytesContains lineNoSpace needle = true ∧
    ∃ lo hi, excerptFrom lineNoSpace needle = some lo ∧ excerptTo lineNoSpace needle = some hi ∧
      0 ≤ lo ∧ lo ≤ (lineNoSpace.length : Int) ∧ 0 ≤ hi ∧ hi ≤ (lineNoSpace.length : Int) ∧
      getContentExcerpt lineNoSpace needle = slice lineNoSpace lo hi ∧
      (getContentExcerpt lineNoSpace needle = none ↔ hi < lo) :=
  ⟨by decide!, by decide, by decide!,
    getContentExcerpt_bounds lineNoSpace needle (by decide!) (by decide) (by decide!)⟩

/-- Scenario 2 of the specification: for the body `hello\nworld\n` and the query `world`
the worker sends one record, with line number 2 and the excerpt `world`, and then its
completion token. -/
theorem grepInObjectContent_hello_world :
    grepInObjectContent asciiToUpper
        [⟨"notes.txt", [104, 101, 108, 108, 111, 10, 119, 111, 114, 108, 100, 10], 12, none⟩]
        [119, 111, 114, 108, 100] false
      = [Event.result ⟨"notes.txt", 2, [119, 111, 114, 108, 100]⟩, Event.done] := by
  decide!

/-- C1 (defect). The body `bodyThreeMatches` has three lines and each satisfies
`caseAwareContains` for the query `NEEDLE`, yet the worker sends the record of the first
line only: `getContentExcerpt` panics on the second line, so neither that line nor the
third gets a record and the completion token is never sent. -/
theorem grepInObjectContent_record_missing :
    (bytesSplit 10 bodyThreeMatches).map
        (fun line => caseAwareContains asciiToUpper line needle false) = [true, true, true] ∧
    grepInObjectContent asciiToUpper [⟨"k", bodyThreeMatches, 222, none⟩] needle false
      = [Event.result ⟨"k", 1, needle⟩, Event.panicked] := by
  decide!

/-- C9 (defect). A worker whose chunk is two objects, the first with the body
`lineSpaceAfterWindow` and the second with the body `NEEDLE`, panics in the first object:
it sends no completion token and never scans the second object, whose line satisfies
`caseAwareContains`. -/
theorem grepInObjectContent_no_completion :
    grepInObjectContent asciiToUpper
        [⟨"first", lineSpaceAfterWindow, 208, none⟩, ⟨"second", needle, 6, none⟩] needle false
      = [Event.panicked] ∧
    (grepInObjectContent asciiToUpper
        [⟨"first", lineSpaceAfterWindow, 208, none⟩, ⟨"second", needle, 6, none⟩] needle
        false).count Event.done = 0 ∧
    (bytesSplit 10 needle).map
        (fun line => caseAwareContains asciiToUpper line needle false) = [true] ∧
    grepInObjectContent asciiToUpper [⟨"second", needle, 6, none⟩] needle false
      = [Event.result ⟨"second", 1, needle⟩, Event.done] := by
  decide!

/-- C3 (defect). `NEEDLE` occurs in `lineSpaceAfterWindow`, the left bound computed by
`getContentExcerpt` is 207 and the right bound is 206, so the slice expression
`text[from:to]` panics. -/
theorem getContentExcerpt_panics :
    bytesContains lineSpaceAfterWindow needle = true ∧
    excerptFrom lineSpaceAfterWindow needle = some 207 ∧
    excerptTo lineSpaceAfterWindow needle = some 206 ∧
    getContentExcerpt lineSpaceAfterWindow needle = none := by
  decide!

/-- C4 (defect). `NEEDLE` occurs in `lineSpaceAfterMatch` at offset 100, and the excerpt is
the 100 bytes `b` after the space, which do not contain `NEEDLE`; `NEEDLE` occurs in
`lineSpaceAtEnd`, whose excerpt is empty; and the pattern of 200 bytes occurs in
`lineLongPattern` at offset 10, while the excerpt starts at offset 50, inside the match,
and does not contain the pattern. -/
theorem getContentExcerpt_misses_match :
    bytesIndex lineSpaceAfterMatch needle = 100 ∧
    getContentExcerpt lineSpaceAfterMatch needle = some (List.replicate 100 98) ∧
    bytesContains (List.replicate 100 98) needle = false ∧
    bytesContains lineSpaceAtEnd needle = true ∧
    getContentExcerpt lineSpaceAtEnd needle = some [] ∧
    bytesIndex lineLongPattern longPattern = 10 ∧
    getContentExcerpt lineLongPattern longPattern = slice lineLongPattern 50 220 ∧
    (getContentExcerpt lineLongPattern longPattern).map
      (fun excerpt => bytesContains excerpt longPattern) = some false := by
  decide!

/-- C5 (defect). For the line of scenario 4, 400 bytes with `NEEDLE` at offset 200 and no
space, the excerpt is `text[143:400]`, 257 bytes long. -/
theorem getContentExcerpt_exceeds_max :
    (lineNoSpace.length : Int) = 400 ∧
    bytesIndex lineNoSpace needle = 200 ∧
    excerptFrom lineNoSpace needle = some 143 ∧
    excerptTo lineNoSpace needle = some 400 ∧
    (getContentExcerpt lineNoSpace needle).map List.length = some 257 := by
  decide!

/-- C6 (defect). For the line of scenario 4 the excerpt starts at offset 143, which is not
0, and the byte before it, at offset 142, is `a`, not a space. -/
theorem getContentExcerpt_starts_mid_word :
    bytesContains lineNoSpace needle = true ∧
    getContentExcerpt lineNoSpace needle = slice lineNoSpace 143 400 ∧
    excerptFrom lineNoSpace needle = some 143 ∧
    byteAt lineNoSpace 142 = some 97 := by
  decide!

/-- C10 (defect). With `ignoreCase` the line `lineLowerCase`, longer than
`MaxExcerptLength`, passes the gate for the query `QUICK`, and the position that
`getContentExcerpt` computes is `-1`; the excerpt is then the first 70 bytes of the line,
without the match. -/
theorem excerptIndex_not_found :
    caseAwareContains asciiToUpper lineLowerCase queryUpperCase true = true ∧
    MaxExcerptLength < (lineLowerCase.length : Int) ∧
    excerptIndex lineLowerCase queryUpperCase = -1 ∧
    getContentExcerpt lineLowerCase queryUpperCase = some (List.replicate 70 97) := by
  decide!

end S3Grep
